import Mathlib

/-!
Verification of the reconciliation core of `oarepo-oidc-einfra`.

This file shallowly embeds the claim-relevant parts of the repository:

* `CommunityRole` and the membership primitives from
  `oarepo_oidc_einfra/communities.py`;
* the synchronization pipeline from `oarepo_oidc_einfra/tasks.py`
  (`filter_community_roles`, `synchronize_users_from_perun`,
  `update_from_perun_dump`);
* the dump parser from `oarepo_oidc_einfra/perun/dump.py`;
* the capability setter from `oarepo_oidc_einfra/perun/api.py`;
* the cache mutex release from `oarepo_oidc_einfra/mutex.py`;
* the dump submission from `oarepo_oidc_einfra/resources.py`.

Python sets are embedded as duplicate-free lists with membership-based
set operations (Python set iteration order is unspecified, so theorems
are stated at the level of membership and of phase ordering, which is
deterministic).  UUIDs are embedded as strings.
-/

/-- A community role: pair of community id and role name
(`CommunityRole` dataclass in `communities.py`). -/
structure CommunityRole where
  community_id : String
  role : String
deriving DecidableEq, Repr

/-- Role priority of a role name, as computed by
`CommunitySupport.role_priorities`: a role at index `i` of the
configured `COMMUNITIES_ROLES` list gets priority `len - i`,
so earlier entries in the configuration rank higher. -/
def role_priority (config : List String) (role_name : String) : Nat :=
  config.length - config.indexOf role_name

/- ----------------------------------------------------------------
C6: `PerunLowLevelAPI.set_resource_capabilities` (perun/api.py).
The stored attribute value (`attr["value"] or []`) is read; if it is
not a superset of the desired capabilities, the union is written back.
Returns (whether a write was issued, stored value afterwards).
---------------------------------------------------------------- -/

/-- Embedding of `set_resource_capabilities`: `value = attr["value"] or []`;
if `not (set(value) >= set(capabilities))` then write
`list(set(value) | set(capabilities))`, else leave the attribute alone. -/
def set_resource_capabilities (stored : Option (List String))
    (capabilities : List String) : Bool × List String :=
  let value := stored.getD []
  if capabilities.all (fun c => decide (c ∈ value)) then
    (false, value)
  else
    (true, value.union capabilities)

/- ----------------------------------------------------------------
C9: `CacheMutex.__exit__` (mutex.py).
The cache is embedded as an association list from keys to stored
values; `cache.get` is lookup, `cache.delete` removes the key.
---------------------------------------------------------------- -/

/-- Embedding of `CacheMutex.__exit__`: delete the lock key only if the
value currently stored under it equals this acquisition's token. -/
def cache_mutex_exit (cache : List (String × String)) (key token : String) :
    List (String × String) :=
  if (cache.find? (fun p => p.1 == key)).map Prod.snd = some token then
    cache.filter (fun p => !(p.1 == key))
  else
    cache

theorem set_resource_capabilities_union_helper (stored : Option (List String))
    (capabilities : List String) :
    ∀ x, x ∈ (set_resource_capabilities stored capabilities).2 ↔
      (x ∈ stored.getD [] ∨ x ∈ capabilities) := by
  intro x
  unfold set_resource_capabilities
  by_cases h : capabilities.all (fun c => decide (c ∈ stored.getD []))
  · simp only [h, if_true]
    simp only [List.all_eq_true, decide_eq_true_iff] at h
    constructor
    · intro hx; exact Or.inl hx
    · rintro (hx | hx)
      · exact hx
      · exact h x hx
  · simp only [h, if_false]
    exact List.mem_union_iff

/-- Claim C6: every call of `set_resource_capabilities` leaves the stored
attribute value equal (as a set) to the union of the previous value and the
desired capabilities; a write is issued exactly when the current value is not
already a superset of the desired capabilities; and no pre-existing value is
ever removed. -/
theorem set_resource_capabilities_spec (stored : Option (List String))
    (capabilities : List String) :
    (∀ x, x ∈ (set_resource_capabilities stored capabilities).2 ↔
      (x ∈ stored.getD [] ∨ x ∈ capabilities)) ∧
    ((set_resource_capabilities stored capabilities).1 = true ↔
      ¬ (∀ c ∈ capabilities, c ∈ stored.getD [])) ∧
    (∀ x ∈ stored.getD [], x ∈ (set_resource_capabilities stored capabilities).2) := by
  refine ⟨set_resource_capabilities_union_helper stored capabilities, ?_, ?_⟩
  · unfold set_resource_capabilities
    by_cases hall : capabilities.all (fun c => decide (c ∈ stored.getD []))
    · simp only [hall, if_true]
      simp only [List.all_eq_true, decide_eq_true_iff] at hall
      constructor
      · intro hfalse
        exact absurd hfalse (by simp)
      · intro hn
        exact absurd hall hn
    · simp only [hall, if_false]
      simp only [List.all_eq_true, decide_eq_true_iff] at hall
      simp [hall]
  · intro x hx
    exact (set_resource_capabilities_union_helper stored capabilities x).2 (Or.inl hx)

/-- Claim C9: releasing the cache mutex deletes the lock key exactly when the
currently stored value equals this acquisition's token; otherwise the cache is
left completely untouched (and the release is a total function, i.e. completes
without error). -/
theorem cache_mutex_exit_spec (cache : List (String × String)) (key token : String) :
    (((cache.find? (fun p => p.1 == key)).map Prod.snd = some token →
        ∀ p ∈ cache_mutex_exit cache key token, p.1 ≠ key)) ∧
    (((cache.find? (fun p => p.1 == key)).map Prod.snd ≠ some token →
        cache_mutex_exit cache key token = cache)) := by
  constructor
  · intro h p hp
    unfold cache_mutex_exit at hp
    simp only [h, if_true] at hp
    have := List.of_mem_filter hp
    simpa using this
  · intro h
    unfold cache_mutex_exit
    simp only [h, if_false]

/-- Witness for C9 at a concrete cache: when the stored value matches the
token the key is removed, and when it differs the cache is untouched. -/
theorem cache_mutex_exit_spec_witness :
    (∀ p ∈ cache_mutex_exit [("lock", "tok1"), ("other", "v")] "lock" "tok1",
       p.1 ≠ "lock") ∧
    cache_mutex_exit [("lock", "tok2")] "lock" "tok1" = [("lock", "tok2")] :=
  ⟨(cache_mutex_exit_spec [("lock", "tok1"), ("other", "v")] "lock" "tok1").1 (by decide),
   (cache_mutex_exit_spec [("lock", "tok2")] "lock" "tok1").2 (by decide)⟩

/- ----------------------------------------------------------------
C1 / C10: `CommunitySupport.set_user_community_membership`
(communities.py).  The function resolves the current roles (fetching
from the database when the caller passed `None` or a falsy empty set),
removes duplicate roles from the requested set, then FIRST removes the
memberships in `current - new` and only AFTERWARDS adds the
memberships in `new - current`.  We embed it as the list of membership
operations it issues against the community-members service, in order.
The optional `role_transformer` hook is unset in the default
configuration and is not modelled.
---------------------------------------------------------------- -/

/-- A membership operation issued against the members service:
`_remove_user_community_membership` receives only the community id,
`_add_user_community_membership` receives the full community role. -/
inductive MembershipOp where
  | removeOp (community_id : String)
  | addOp (cr : CommunityRole)
deriving DecidableEq, Repr

/-- Embedding of `CommunitySupport._remove_duplicate_roles`: for every
community targeted by more than one requested role, keep only the role
with the smallest index in the configured `COMMUNITIES_ROLES` list
(the head of the list sorted by configuration index), removing the rest. -/
def remove_duplicate_roles (config : List String) (new_community_roles : List CommunityRole) :
    List CommunityRole :=
  new_community_roles.filter fun cr =>
    new_community_roles.all fun other =>
      !(other.community_id == cr.community_id) ||
        decide (config.indexOf cr.role ≤ config.indexOf other.role)

/-- Embedding of the `if not current_community_roles` defaulting at the top of
`set_user_community_membership`: a missing (`None`) or empty current role set
is replaced by the roles fetched from the database
(`get_user_community_membership`, here the `stored` parameter). -/
def resolve_current_roles (stored : List CommunityRole)
    (current_community_roles : Option (List CommunityRole)) : List CommunityRole :=
  match current_community_roles with
  | none => stored
  | some s => if s.isEmpty then stored else s

/-- Embedding of `set_user_community_membership` as the ordered list of
membership operations it performs: resolve current roles, drop duplicate
requested roles, then remove `current - new`, then add `new - current`. -/
def set_user_community_membership (config : List String) (stored : List CommunityRole)
    (new_community_roles : List CommunityRole)
    (current_community_roles : Option (List CommunityRole)) : List MembershipOp :=
  let current := resolve_current_roles stored current_community_roles
  let news := remove_duplicate_roles config new_community_roles
  (current.filter fun cr => decide (cr ∉ news)).map
      (fun cr => MembershipOp.removeOp cr.community_id)
    ++ (news.filter fun cr => decide (cr ∉ current)).map MembershipOp.addOp

/-- Whether a membership operation is a removal. -/
def MembershipOp.isRemove : MembershipOp → Bool
  | .removeOp _ => true
  | .addOp _ => false

/-- Whether a membership operation is an addition. -/
def MembershipOp.isAdd : MembershipOp → Bool
  | .removeOp _ => false
  | .addOp _ => true

/-- An operation sequence applies all additions before any removal. -/
def additions_before_removals (ops : List MembershipOp) : Bool :=
  (ops.dropWhile MembershipOp.isAdd).all MembershipOp.isRemove

/-- An operation sequence applies all removals before any addition. -/
def removals_before_additions (ops : List MembershipOp) : Bool :=
  (ops.dropWhile MembershipOp.isRemove).all MembershipOp.isAdd

theorem dropWhile_append_of_all {p : MembershipOp → Bool} (l₁ l₂ : List MembershipOp)
    (h : l₁.all p) : (l₁ ++ l₂).dropWhile p = l₂.dropWhile p := by
  induction l₁ with
  | nil => simp
  | cons x xs ih =>
      simp only [List.all_cons, Bool.and_eq_true] at h
      simp only [List.cons_append, List.dropWhile_cons, h.1, if_true]
      exact ih h.2

/-- Claim C1 (as stated) is false on the code: with current roles
`{(A, member)}` and new roles `{(B, member)}`, the issued operation sequence
is `[remove A, add (B, member)]`, so the addition is applied after the
removal, not before it. -/
theorem set_user_community_membership_not_add_first :
    set_user_community_membership ["curator", "member"]
        [⟨"A", "member"⟩] [⟨"B", "member"⟩] none
      = [MembershipOp.removeOp "A", MembershipOp.addOp ⟨"B", "member"⟩] ∧
    additions_before_removals
      (set_user_community_membership ["curator", "member"]
        [⟨"A", "member"⟩] [⟨"B", "member"⟩] none) = false := by
  constructor
  · rfl
  · rfl

/-- Claim C1 amended: within one `set_user_community_membership` call all
role removals (current roles minus new roles) are applied before any role
additions (new roles minus current roles); the code removes eagerly first
and adds afterwards. -/
theorem set_user_community_membership_removals_first (config : List String)
    (stored new_community_roles : List CommunityRole)
    (current_community_roles : Option (List CommunityRole)) :
    removals_before_additions
      (set_user_community_membership config stored new_community_roles
        current_community_roles) = true := by
  unfold set_user_community_membership removals_before_additions
  have hrem :
      ((resolve_current_roles stored current_community_roles).filter
        (fun cr => decide
          (cr ∉ remove_duplicate_roles config new_community_roles))).map
        (fun cr => MembershipOp.removeOp cr.community_id)
        |>.all MembershipOp.isRemove := by
    rw [List.all_eq_true]
    intro x hx
    rw [List.mem_map] at hx
    obtain ⟨cr, _, rfl⟩ := hx
    rfl
  rw [dropWhile_append_of_all _ _ hrem]
  have hadd :
      ∀ l : List CommunityRole,
        ((l.map MembershipOp.addOp).dropWhile MembershipOp.isRemove).all
          MembershipOp.isAdd = true := by
    intro l
    cases l with
    | nil => rfl
    | cons x xs =>
        simp only [List.map_cons, List.dropWhile_cons]
        simp [MembershipOp.isRemove, MembershipOp.isAdd, List.all_eq_true]
  exact hadd _

/-- Claim C10: passing an explicitly empty current role set behaves exactly
like passing `None` (Python falsiness): the current roles are fetched from the
database, and every stored membership whose community role is not among the
requested roles still gets a removal operation issued. -/
theorem set_user_community_membership_empty_current (config : List String)
    (stored new_community_roles : List CommunityRole) :
    (set_user_community_membership config stored new_community_roles (some []) =
      set_user_community_membership config stored new_community_roles none) ∧
    (∀ cr ∈ stored, cr ∉ remove_duplicate_roles config new_community_roles →
      MembershipOp.removeOp cr.community_id ∈
        set_user_community_membership config stored new_community_roles (some [])) := by
  constructor
  · rfl
  · intro cr hcr hnotin
    unfold set_user_community_membership
    apply List.mem_append_left
    apply List.mem_map_of_mem
    rw [List.mem_filter]
    refine ⟨?_, by simpa using hnotin⟩
    simpa [resolve_current_roles] using hcr

/-- Witness for C10: with one stored membership and no requested roles, the
call with an explicit empty current set equals the call with `None` and emits
the removal for the stored community. -/
theorem set_user_community_membership_empty_current_witness :
    MembershipOp.removeOp "A" ∈
      set_user_community_membership ["curator", "member"]
        [⟨"A", "member"⟩] [] (some []) :=
  (set_user_community_membership_empty_current ["curator", "member"]
      [⟨"A", "member"⟩] []).2 ⟨"A", "member"⟩ (by decide) (by decide)


/- ----------------------------------------------------------------
C2: `filter_community_roles` (tasks.py).  The pull path resolves
priority conflicts with a dictionary keyed by community id: a later
role replaces the stored one only if its `role_priority` is strictly
higher.  The Python dict is embedded as an association list keyed by
community id (insertion order preserved, update in place), and the
`for` loop as a left fold.
---------------------------------------------------------------- -/

/-- One iteration of the loop in `filter_community_roles`: insert the role
if its community is not yet present, otherwise replace the stored role only
when the new role has strictly higher priority. -/
def update_community_role (config : List String)
    (acc : List (String × CommunityRole)) (cr : CommunityRole) :
    List (String × CommunityRole) :=
  match acc.find? (fun p => p.1 == cr.community_id) with
  | none => acc ++ [(cr.community_id, cr)]
  | some p =>
      if role_priority config p.2.role < role_priority config cr.role then
        acc.map (fun q => if q.1 == cr.community_id then (q.1, cr) else q)
      else acc

/-- Embedding of `filter_community_roles`: fold the incoming roles through
the dictionary and return its values. -/
def filter_community_roles (config : List String) (aai_roles : List CommunityRole) :
    List CommunityRole :=
  (aai_roles.foldl (update_community_role config) []).map Prod.snd

/-- Invariant of the role dictionary while the incoming roles are folded:
keys are distinct, each value sits under its own community id, values come
from the processed input, every processed community is covered, and each
value has maximal priority among the processed roles of its community. -/
def RoleAccInv (config : List String) (processed : List CommunityRole)
    (acc : List (String × CommunityRole)) : Prop :=
  (acc.map Prod.fst).Nodup ∧
  (∀ p ∈ acc, p.2.community_id = p.1) ∧
  (∀ p ∈ acc, p.2 ∈ processed) ∧
  (∀ r ∈ processed, ∃ p ∈ acc, p.1 = r.community_id) ∧
  (∀ p ∈ acc, ∀ r ∈ processed, r.community_id = p.1 →
    role_priority config r.role ≤ role_priority config p.2.role)

theorem assoc_key_unique {α β : Type} [DecidableEq α] (acc : List (α × β))
    (h : (acc.map Prod.fst).Nodup) :
    ∀ q₁ ∈ acc, ∀ q₂ ∈ acc, q₁.1 = q₂.1 → q₁ = q₂ := by
  induction acc with
  | nil => intro q₁ h₁; exact absurd h₁ (List.not_mem_nil q₁)
  | cons a rest ih =>
      simp only [List.map_cons, List.nodup_cons] at h
      intro q₁ h₁ q₂ h₂ hk
      rcases List.mem_cons.mp h₁ with e₁ | h₁ <;>
        rcases List.mem_cons.mp h₂ with e₂ | h₂
      · rw [e₁, e₂]
      · exfalso
        apply h.1
        have hm : q₂.1 ∈ rest.map Prod.fst := List.mem_map_of_mem Prod.fst h₂
        rw [← hk, e₁] at hm
        exact hm
      · exfalso
        apply h.1
        have hm : q₁.1 ∈ rest.map Prod.fst := List.mem_map_of_mem Prod.fst h₁
        rw [hk, e₂] at hm
        exact hm
      · exact ih h.2 q₁ h₁ q₂ h₂ hk

theorem update_community_role_inv (config : List String)
    (processed : List CommunityRole) (acc : List (String × CommunityRole))
    (cr : CommunityRole) (h : RoleAccInv config processed acc) :
    RoleAccInv config (processed ++ [cr]) (update_community_role config acc cr) := by
  obtain ⟨hnodup, hkey, hval, hcov, hmax⟩ := h
  unfold update_community_role
  rcases hfind : acc.find? (fun p => p.1 == cr.community_id) with _ | p
  · -- community not present yet: append a fresh entry
    simp only [hfind]
    have hnone : ∀ q ∈ acc, q.1 ≠ cr.community_id := by
      intro q hq
      have := List.find?_eq_none.mp hfind q hq
      simpa using this
    refine ⟨?_, ?_, ?_, ?_, ?_⟩
    · rw [List.map_append, List.nodup_append]
      refine ⟨hnodup, List.nodup_singleton _, ?_⟩
      intro k hk hk'
      simp only [List.map_cons, List.map_nil, List.mem_singleton] at hk'
      rw [List.mem_map] at hk
      obtain ⟨q, hq, rfl⟩ := hk
      exact hnone q hq hk'
    · intro q hq
      rcases List.mem_append.mp hq with hqa | hqn
      · exact hkey q hqa
      · rw [List.mem_singleton] at hqn
        rw [hqn]
    · intro q hq
      rcases List.mem_append.mp hq with hqa | hqn
      · exact List.mem_append_left _ (hval q hqa)
      · rw [List.mem_singleton] at hqn
        rw [hqn]
        exact List.mem_append_right _ (List.mem_singleton_self cr)
    · intro r hr
      rcases List.mem_append.mp hr with hrp | hrn
      · obtain ⟨q, hq, hq'⟩ := hcov r hrp
        exact ⟨q, List.mem_append_left _ hq, hq'⟩
      · rw [List.mem_singleton] at hrn
        refine ⟨(cr.community_id, cr),
          List.mem_append_right _ (List.mem_singleton_self _), ?_⟩
        rw [hrn]
    · intro q hq r hr hrq
      rcases List.mem_append.mp hq with hqa | hqn
      · rcases List.mem_append.mp hr with hrp | hrn
        · exact hmax q hqa r hrp hrq
        · rw [List.mem_singleton] at hrn
          rw [hrn] at hrq
          exact absurd hrq.symm (hnone q hqa)
      · rw [List.mem_singleton] at hqn
        rcases List.mem_append.mp hr with hrp | hrn
        · obtain ⟨q', hq', hq''⟩ := hcov r hrp
          rw [hqn] at hrq
          simp only at hrq
          exact absurd (hq''.trans hrq) (hnone q' hq')
        · rw [List.mem_singleton] at hrn
          rw [hqn, hrn]
  · -- community already present under entry p
    simp only [hfind]
    have hp_mem : p ∈ acc := List.mem_of_find?_eq_some hfind
    have hp_key : p.1 = cr.community_id := by
      have := List.find?_some hfind
      simpa using this
    by_cases hlt : role_priority config p.2.role < role_priority config cr.role
    · -- replace the stored value in place
      rw [if_pos hlt]
      have hfst : ∀ q : String × CommunityRole,
          ((fun q => if q.1 == cr.community_id then (q.1, cr) else q) q).1 = q.1 := by
        intro q
        by_cases hq : q.1 == cr.community_id
        · simp [hq]
        · simp [hq]
      have hmapfst :
          ((acc.map fun q => if q.1 == cr.community_id then (q.1, cr) else q).map
            Prod.fst) = acc.map Prod.fst := by
        rw [List.map_map]
        exact List.map_congr_left fun q _ => hfst q
      refine ⟨?_, ?_, ?_, ?_, ?_⟩
      · rw [hmapfst]
        exact hnodup
      · intro q' hq'
        rw [List.mem_map] at hq'
        obtain ⟨q, hq, rfl⟩ := hq'
        by_cases hc : q.1 == cr.community_id
        · simp only [hc, if_true]
          simpa using (eq_of_beq hc).symm
        · simp only [hc, if_false]
          exact hkey q hq
      · intro q' hq'
        rw [List.mem_map] at hq'
        obtain ⟨q, hq, rfl⟩ := hq'
        by_cases hc : q.1 == cr.community_id
        · simp only [hc, if_true]
          exact List.mem_append_right _ (List.mem_singleton_self cr)
        · simp only [hc, if_false]
          exact List.mem_append_left _ (hval q hq)
      · intro r hr
        rcases List.mem_append.mp hr with hrp | hrn
        · obtain ⟨q, hq, hq'⟩ := hcov r hrp
          refine ⟨(fun q => if q.1 == cr.community_id then (q.1, cr) else q) q,
            List.mem_map_of_mem _ hq, ?_⟩
          rw [hfst q]
          exact hq'
        · rw [List.mem_singleton] at hrn
          refine ⟨(fun q => if q.1 == cr.community_id then (q.1, cr) else q) p,
            List.mem_map_of_mem _ hp_mem, ?_⟩
          rw [hfst p, hrn]
          exact hp_key
      · intro q' hq' r hr hrq
        rw [List.mem_map] at hq'
        obtain ⟨q, hq, rfl⟩ := hq'
        rw [hfst q] at hrq
        by_cases hc : q.1 == cr.community_id
        · have hqp : q = p :=
            assoc_key_unique acc hnodup q hq p hp_mem ((eq_of_beq hc).trans hp_key.symm)
          simp only [hc, if_true]
          rcases List.mem_append.mp hr with hrp | hrn
          · have hle := hmax q hq r hrp hrq
            rw [hqp] at hle
            exact le_of_lt (lt_of_le_of_lt hle hlt)
          · rw [List.mem_singleton] at hrn
            rw [hrn]
        · simp only [hc, if_false]
          rcases List.mem_append.mp hr with hrp | hrn
          · exact hmax q hq r hrp hrq
          · rw [List.mem_singleton] at hrn
            rw [hrn] at hrq
            rw [hrq] at hc
            exact absurd (beq_self_eq_true q.1) hc
    · -- keep the stored value
      rw [if_neg hlt]
      refine ⟨hnodup, hkey, fun q hq => List.mem_append_left _ (hval q hq), ?_, ?_⟩
      · intro r hr
        rcases List.mem_append.mp hr with hrp | hrn
        · exact hcov r hrp
        · rw [List.mem_singleton] at hrn
          refine ⟨p, hp_mem, ?_⟩
          rw [hrn]
          exact hp_key
      · intro q hq r hr hrq
        rcases List.mem_append.mp hr with hrp | hrn
        · exact hmax q hq r hrp hrq
        · rw [List.mem_singleton] at hrn
          rw [hrn] at hrq
          have hqp : q = p :=
            assoc_key_unique acc hnodup q hq p hp_mem (hrq ▸ hp_key).symm
          rw [hrn, hqp]
          exact le_of_not_lt hlt

theorem foldl_update_community_role_inv (config : List String) :
    ∀ (rest processed : List CommunityRole) (acc : List (String × CommunityRole)),
      RoleAccInv config processed acc →
      RoleAccInv config (processed ++ rest)
        (rest.foldl (update_community_role config) acc) := by
  intro rest
  induction rest with
  | nil =>
      intro processed acc h
      rw [List.foldl_nil, List.append_nil]
      exact h
  | cons x xs ih =>
      intro processed acc h
      have h' := update_community_role_inv config processed acc x h
      have hstep := ih (processed ++ [x]) (update_community_role config acc x) h'
      rw [List.foldl_cons]
      rw [List.append_assoc, List.singleton_append] at hstep
      exact hstep

/-- Claim C2: priority resolution keeps, for each community, exactly one of
the incoming assignments, chosen with maximal `role_priority`; every kept
assignment comes from the input, every targeted community stays covered; and
on the concrete input `{(E, member), (E, curator)}` with curator ranked above
member in the configuration, the retained set is exactly `{(E, curator)}`. -/
theorem filter_community_roles_spec (config : List String)
    (aai_roles : List CommunityRole) :
    (∀ cr ∈ filter_community_roles config aai_roles, cr ∈ aai_roles) ∧
    (∀ cr ∈ filter_community_roles config aai_roles,
      ∀ cr' ∈ filter_community_roles config aai_roles,
        cr.community_id = cr'.community_id → cr = cr') ∧
    (∀ r ∈ aai_roles, ∃ cr ∈ filter_community_roles config aai_roles,
        cr.community_id = r.community_id) ∧
    (∀ cr ∈ filter_community_roles config aai_roles,
      ∀ r ∈ aai_roles, r.community_id = cr.community_id →
        role_priority config r.role ≤ role_priority config cr.role) ∧
    filter_community_roles ["curator", "member"]
      [⟨"E", "member"⟩, ⟨"E", "curator"⟩] = [⟨"E", "curator"⟩] := by
  have hbase : RoleAccInv config [] [] := by
    refine ⟨List.nodup_nil, ?_, ?_, ?_, ?_⟩ <;> intro p hp <;>
      exact absurd hp (List.not_mem_nil p)
  have hinv := foldl_update_community_role_inv config aai_roles [] [] hbase
  rw [List.nil_append] at hinv
  obtain ⟨hnodup, hkey, hval, hcov, hmax⟩ := hinv
  unfold filter_community_roles
  refine ⟨?_, ?_, ?_, ?_, by rfl⟩
  · intro cr hcr
    rw [List.mem_map] at hcr
    obtain ⟨q, hq, rfl⟩ := hcr
    exact hval q hq
  · intro cr hcr cr' hcr' hcc
    rw [List.mem_map] at hcr hcr'
    obtain ⟨q, hq, rfl⟩ := hcr
    obtain ⟨q', hq', rfl⟩ := hcr'
    have hkk : q.1 = q'.1 := by
      rw [← hkey q hq, ← hkey q' hq']
      exact hcc
    have hqq := assoc_key_unique _ hnodup q hq q' hq' hkk
    rw [hqq]
  · intro r hr
    obtain ⟨q, hq, hq'⟩ := hcov r hr
    exact ⟨q.2, List.mem_map_of_mem _ hq, (hkey q hq).trans hq'⟩
  · intro cr hcr r hr hrc
    rw [List.mem_map] at hcr
    obtain ⟨q, hq, rfl⟩ := hcr
    exact hmax q hq r hr (hrc.trans (hkey q hq))

/-- Witness for C2: the concrete priority-resolution example from the spec,
obtained by applying `filter_community_roles_spec`. -/
theorem filter_community_roles_spec_witness :
    filter_community_roles ["curator", "member"]
      [⟨"E", "member"⟩, ⟨"E", "curator"⟩] = [⟨"E", "curator"⟩] :=
  (filter_community_roles_spec [] []).2.2.2.2

/- ----------------------------------------------------------------
C3: `CommunitySupport._add_user_community_membership` (communities.py).
The community-members table is embedded as a list of member rows
(active membership or pending invitation).  The invenio service call
`members.add` raises `AlreadyMemberError` exactly when a row for the
(community, user) pair already exists; the exception handler queries
all rows for the pair, accepts the invitation when there is exactly
one inactive hit, does nothing when the single hit is active, and
surfaces a conflict error (log + flash) otherwise.
---------------------------------------------------------------- -/

/-- A row of the community members table (`MemberModel`): an active
membership or a pending invitation. -/
structure MemberRow where
  community_id : String
  user_id : Nat
  active : Bool
  request_id : Nat
deriving DecidableEq, Repr

/-- Outcome of `_add_user_community_membership`. -/
inductive AddOutcome where
  | added
  | acceptedInvitation
  | alreadyActiveNoAction
  | conflictError
deriving DecidableEq, Repr

/-- The rows of the members table for one (community, user) pair: the query
`MemberModel.user_id == user.id, MemberModel.community_id == community_id`. -/
def pairRows (state : List MemberRow) (community_id : String) (user_id : Nat) :
    List MemberRow :=
  state.filter fun r => r.user_id == user_id && r.community_id == community_id

/-- Embedding of `members.accept_invite`: the row carrying the request id
becomes an active membership. -/
def accept_invite (state : List MemberRow) (request_id : Nat) : List MemberRow :=
  state.map fun r =>
    if r.request_id == request_id then
      { community_id := r.community_id, user_id := r.user_id, active := true,
        request_id := r.request_id }
    else r

/-- Embedding of `_add_user_community_membership`: try `members.add` (which
fails when a row for the pair exists); on `AlreadyMemberError`, fetch all rows
for the pair; with exactly one inactive hit accept its invitation, with one
active hit do nothing, otherwise report a conflict and change nothing. -/
def add_user_community_membership (state : List MemberRow) (community_id : String)
    (user_id : Nat) (fresh_request_id : Nat) : AddOutcome × List MemberRow :=
  if (pairRows state community_id user_id).isEmpty then
    (AddOutcome.added, state ++ [⟨community_id, user_id, true, fresh_request_id⟩])
  else
    match pairRows state community_id user_id with
    | [hit] =>
        if hit.active then (AddOutcome.alreadyActiveNoAction, state)
        else (AddOutcome.acceptedInvitation, accept_invite state hit.request_id)
    | _ => (AddOutcome.conflictError, state)

/-- Claim C3: after `members.add` fails because a row for the pair exists, the
reconciler queries the rows for exactly that pair; with exactly one pending
(inactive) hit the invitation is accepted — the hit becomes an active
membership and no row is created, so no duplicate membership appears — and
with a number of hits different from one the grant is abandoned with a
conflict error and the table is left unchanged. -/
theorem add_user_community_membership_spec (state : List MemberRow)
    (community_id : String) (user_id : Nat) (fresh_request_id : Nat) :
    (∀ hit, pairRows state community_id user_id = [hit] → hit.active = false →
      (add_user_community_membership state community_id user_id fresh_request_id).1
          = AddOutcome.acceptedInvitation ∧
      (add_user_community_membership state community_id user_id fresh_request_id).2.length
          = state.length ∧
      (add_user_community_membership state community_id user_id fresh_request_id).2.map
          (fun r => (r.community_id, r.user_id))
          = state.map (fun r => (r.community_id, r.user_id)) ∧
      (⟨community_id, user_id, true, hit.request_id⟩ : MemberRow) ∈
        (add_user_community_membership state community_id user_id fresh_request_id).2) ∧
    ((pairRows state community_id user_id).isEmpty = false →
      (pairRows state community_id user_id).length ≠ 1 →
      add_user_community_membership state community_id user_id fresh_request_id
        = (AddOutcome.conflictError, state)) := by
  constructor
  · intro hit hps hactive
    have hhit : hit ∈ pairRows state community_id user_id := by
      rw [hps]
      exact List.mem_singleton_self hit
    have hmem : hit ∈ state := (List.mem_filter.mp hhit).1
    have hpred := (List.mem_filter.mp hhit).2
    rw [Bool.and_eq_true] at hpred
    have huid : hit.user_id = user_id := by
      have := hpred.1
      simpa using this
    have hcid : hit.community_id = community_id := by
      have := hpred.2
      simpa using this
    have hred : add_user_community_membership state community_id user_id fresh_request_id
        = (AddOutcome.acceptedInvitation, accept_invite state hit.request_id) := by
      unfold add_user_community_membership
      rw [hps]
      simp only [List.isEmpty_cons, if_false, Bool.false_eq_true]
      rw [hactive]
      simp only [if_false, Bool.false_eq_true]
    rw [hred]
    refine ⟨rfl, ?_, ?_, ?_⟩
    · unfold accept_invite
      exact List.length_map state _
    · unfold accept_invite
      rw [List.map_map]
      apply List.map_congr_left
      intro r _
      simp only [Function.comp_apply]
      by_cases hc : (r.request_id == hit.request_id) = true
      · rw [if_pos hc]
      · rw [if_neg hc]
    · unfold accept_invite
      have him := List.mem_map_of_mem
        (fun r : MemberRow =>
          if r.request_id == hit.request_id then
            { community_id := r.community_id, user_id := r.user_id, active := true,
              request_id := r.request_id }
          else r) hmem
      simp only [beq_self_eq_true, if_true] at him
      rw [hcid, huid] at him
      exact him
  · intro hne hlen
    rcases hps : pairRows state community_id user_id with _ | ⟨a, rest⟩
    · rw [hps] at hne
      simp at hne
    · rcases rest with _ | ⟨b, rest2⟩
      · rw [hps] at hlen
        simp at hlen
      · unfold add_user_community_membership
        rw [hps]
        rfl

/-- Witness for C3: one pending invitation row for the pair is accepted and
no duplicate row is created. -/
theorem add_user_community_membership_spec_witness :
    (add_user_community_membership [⟨"C", 7, false, 42⟩] "C" 7 99).1
      = AddOutcome.acceptedInvitation ∧
    (⟨"C", 7, true, 42⟩ : MemberRow) ∈
      (add_user_community_membership [⟨"C", 7, false, 42⟩] "C" 7 99).2 :=
  ⟨((add_user_community_membership_spec [⟨"C", 7, false, 42⟩] "C" 7 99).1
      ⟨"C", 7, false, 42⟩ (by decide) rfl).1,
   ((add_user_community_membership_spec [⟨"C", 7, false, 42⟩] "C" 7 99).1
      ⟨"C", 7, false, 42⟩ (by decide) rfl).2.2.2⟩

/- ----------------------------------------------------------------
C4 / C7: `synchronize_users_from_perun` (tasks.py) over
`einfra_to_local_users_map` (perun/mapping.py).  The map of e-infra id
to local user id is embedded as an association list; the task walks
the dump users, pops each e-infra id found locally and issues one
metadata-and-membership update for the matching local user, logs dump
users unknown locally, and finally revokes all community roles
(`set_user_community_membership(user, set())`) for every linked local
user left in the map, i.e. absent from the dump.  Chunking (size 100)
only batches the database queries and does not change which calls are
issued, so the chunks are flattened here.
---------------------------------------------------------------- -/

/-- A user record of the Perun dump (`AAIUser` in perun/dump.py). -/
structure AAIUser where
  einfra_id : String
  email : String
  full_name : String
  organization : String
  roles : List CommunityRole
deriving DecidableEq, Repr

/-- One call issued by the synchronization task: update an existing local
user (metadata plus membership set through `set_user_community_membership`),
revoke all roles of a local user absent from the dump
(`set_user_community_membership(user, set())`), or log a dump user that has
no local account. -/
inductive SyncAction where
  | updateUser (user_id : Nat) (new_roles : List CommunityRole)
  | revokeAll (user_id : Nat)
  | logUnknownUser (einfra_id : String)
deriving DecidableEq, Repr

/-- The local user id a synchronization action modifies, if any. -/
def SyncAction.touchesUser : SyncAction → Option Nat
  | SyncAction.updateUser uid _ => some uid
  | SyncAction.revokeAll uid => some uid
  | SyncAction.logUnknownUser _ => none

/-- The main loop of `synchronize_users_from_perun`: for each dump user, pop
its e-infra id from the local map; matching users get an update action with
priority-filtered roles, unknown users are only logged.  Returns the actions
and the leftover map entries. -/
def processDumpUsers (config : List String) :
    List (String × Nat) → List AAIUser → List SyncAction × List (String × Nat)
  | m, [] => ([], m)
  | m, u :: rest =>
    match m.find? (fun p => p.1 == u.einfra_id) with
    | some p =>
        let r := processDumpUsers config
          (m.eraseP (fun q => q.1 == u.einfra_id)) rest
        (SyncAction.updateUser p.2 (filter_community_roles config u.roles) :: r.1,
         r.2)
    | none =>
        let r := processDumpUsers config m rest
        (SyncAction.logUnknownUser u.einfra_id :: r.1, r.2)

/-- Embedding of `synchronize_users_from_perun`: process the dump users, then
revoke all community roles of every linked local user not seen in the dump. -/
def synchronize_users_from_perun (config : List String)
    (local_users_by_einfra : List (String × Nat)) (dump_users : List AAIUser) :
    List SyncAction :=
  (processDumpUsers config local_users_by_einfra dump_users).1 ++
    (processDumpUsers config local_users_by_einfra dump_users).2.map
      (fun p => SyncAction.revokeAll p.2)

/-- Effect of a membership operation sequence on a stored role set:
removals drop every membership of the community, additions insert the role. -/
def applyMembershipOps (stored : List CommunityRole) (ops : List MembershipOp) :
    List CommunityRole :=
  ops.foldl
    (fun st op =>
      match op with
      | MembershipOp.removeOp cid => st.filter (fun cr => !(cr.community_id == cid))
      | MembershipOp.addOp cr => if cr ∈ st then st else st ++ [cr])
    stored

theorem applyMembershipOps_removes_all (cids : List String) :
    ∀ st : List CommunityRole, (∀ cr ∈ st, cr.community_id ∈ cids) →
      applyMembershipOps st (cids.map MembershipOp.removeOp) = [] := by
  induction cids with
  | nil =>
      intro st hst
      have : st = [] := by
        cases st with
        | nil => rfl
        | cons a rest => exact absurd (hst a (List.mem_cons_self a rest)) (List.not_mem_nil _)
      rw [this]
      rfl
  | cons c cids ih =>
      intro st hst
      unfold applyMembershipOps
      rw [List.map_cons, List.foldl_cons]
      have hstep := ih (st.filter (fun cr => !(cr.community_id == c))) ?_
      · exact hstep
      · intro cr hcr
        have hm := List.mem_filter.mp hcr
        have hne : cr.community_id ≠ c := by
          have := hm.2
          simp only [Bool.not_eq_eq_eq_not, Bool.not_true, beq_eq_false_iff_ne] at this
          exact this
        rcases List.mem_cons.mp (hst cr hm.1) with he | hm'
        · exact absurd he hne
        · exact hm'

theorem set_user_community_membership_empty_ops (config : List String)
    (stored : List CommunityRole) :
    set_user_community_membership config stored [] none
      = stored.map (fun cr => MembershipOp.removeOp cr.community_id) := by
  unfold set_user_community_membership resolve_current_roles remove_duplicate_roles
  simp

theorem processDumpUsers_keeps (config : List String) :
    ∀ (dump_users : List AAIUser) (m : List (String × Nat)) (eid : String) (uid : Nat),
      (eid, uid) ∈ m → (∀ u ∈ dump_users, u.einfra_id ≠ eid) →
      (eid, uid) ∈ (processDumpUsers config m dump_users).2 := by
  intro dump_users
  induction dump_users with
  | nil =>
      intro m eid uid hm _
      exact hm
  | cons u rest ih =>
      intro m eid uid hm habs
      have hne : u.einfra_id ≠ eid := habs u (List.mem_cons_self u rest)
      have habs' : ∀ v ∈ rest, v.einfra_id ≠ eid :=
        fun v hv => habs v (List.mem_cons_of_mem u hv)
      unfold processDumpUsers
      rcases hfind : m.find? (fun p => p.1 == u.einfra_id) with _ | p
      · simp only [hfind]
        exact ih m eid uid hm habs'
      · simp only [hfind]
        apply ih
        · rw [List.mem_eraseP_of_neg]
          · exact hm
          · simp only [beq_eq_false_iff_ne, Bool.not_eq_true]
            exact fun he => hne he.symm
        · exact habs'

/-- Claim C4: a linked local user entirely absent from the dump receives the
revoke-all call, and that call (`set_user_community_membership` with an empty
new role set and no caller-provided current roles) reduces any stored
membership to the empty set. -/
theorem synchronize_users_from_perun_revokes_absent (config : List String)
    (local_users_by_einfra : List (String × Nat)) (dump_users : List AAIUser)
    (eid : String) (uid : Nat)
    (hmem : (eid, uid) ∈ local_users_by_einfra)
    (habs : ∀ u ∈ dump_users, u.einfra_id ≠ eid) :
    SyncAction.revokeAll uid ∈
      synchronize_users_from_perun config local_users_by_einfra dump_users ∧
    ∀ stored : List CommunityRole,
      applyMembershipOps stored (set_user_community_membership config stored [] none)
        = [] := by
  constructor
  · unfold synchronize_users_from_perun
    apply List.mem_append_right
    have hkeep := processDumpUsers_keeps config dump_users local_users_by_einfra
      eid uid hmem habs
    exact List.mem_map_of_mem (fun p => SyncAction.revokeAll p.2) hkeep
  · intro stored
    rw [set_user_community_membership_empty_ops]
    have hmm : stored.map (fun cr => MembershipOp.removeOp cr.community_id)
        = (stored.map (fun cr => cr.community_id)).map MembershipOp.removeOp := by
      rw [List.map_map]
      rfl
    rw [hmm]
    exact applyMembershipOps_removes_all _ stored
      (fun cr hcr => List.mem_map_of_mem _ hcr)

/-- Witness for C4: user 5 is linked locally under e-infra id E1 but missing
from a dump that only names E2, so the pass revokes all of their roles, and
the revoke call empties a concrete stored membership. -/
theorem synchronize_users_from_perun_revokes_absent_witness :
    SyncAction.revokeAll 5 ∈
      synchronize_users_from_perun ["curator", "member"] [("E1", 5)]
        [⟨"E2", "a@b.c", "A B", "Org", []⟩] ∧
    applyMembershipOps [⟨"C", "member"⟩]
      (set_user_community_membership ["curator", "member"] [⟨"C", "member"⟩] [] none)
      = [] :=
  have h := synchronize_users_from_perun_revokes_absent ["curator", "member"]
    [("E1", 5)] [⟨"E2", "a@b.c", "A B", "Org", []⟩] "E1" 5 (by decide) (by decide)
  ⟨h.1, h.2 [⟨"C", "member"⟩]⟩

theorem processDumpUsers_actions_touch_known (config : List String) :
    ∀ (dump_users : List AAIUser) (m : List (String × Nat)),
      (∀ a ∈ (processDumpUsers config m dump_users).1, ∀ uid : Nat,
        a.touchesUser = some uid → uid ∈ m.map Prod.snd) ∧
      (∀ p ∈ (processDumpUsers config m dump_users).2, p ∈ m) := by
  intro dump_users
  induction dump_users with
  | nil =>
      intro m
      exact ⟨fun a ha => absurd ha (List.not_mem_nil a), fun p hp => hp⟩
  | cons u rest ih =>
      intro m
      unfold processDumpUsers
      rcases hfind : m.find? (fun p => p.1 == u.einfra_id) with _ | p
      · simp only [hfind]
        refine ⟨?_, (ih m).2⟩
        intro a ha uid htouch
        rcases List.mem_cons.mp ha with he | ha'
        · rw [he] at htouch
          exact absurd htouch (by simp [SyncAction.touchesUser])
        · exact (ih m).1 a ha' uid htouch
      · simp only [hfind]
        have hsub : ∀ q ∈ m.eraseP (fun q => q.1 == u.einfra_id), q ∈ m :=
          fun q hq => List.eraseP_subset _ hq
        refine ⟨?_, ?_⟩
        · intro a ha uid htouch
          rcases List.mem_cons.mp ha with he | ha'
          · rw [he] at htouch
            simp only [SyncAction.touchesUser, Option.some.injEq] at htouch
            rw [← htouch]
            exact List.mem_map_of_mem Prod.snd (List.mem_of_find?_eq_some hfind)
          · have hin := (ih (m.eraseP (fun q => q.1 == u.einfra_id))).1 a ha' uid htouch
            rw [List.mem_map] at hin
            obtain ⟨q, hq, hq'⟩ := hin
            rw [← hq']
            exact List.mem_map_of_mem Prod.snd (hsub q hq)
        · intro q hq
          exact hsub q ((ih (m.eraseP (fun q => q.1 == u.einfra_id))).2 q hq)

/-- Claim C7: batch reconciliation never creates a local principal — every
action of the synchronization pass that modifies a user carries a user id
already present in the pre-existing local identity map, and dump users
unknown locally only produce log actions. -/
theorem synchronize_users_from_perun_no_create (config : List String)
    (local_users_by_einfra : List (String × Nat)) (dump_users : List AAIUser) :
    ∀ a ∈ synchronize_users_from_perun config local_users_by_einfra dump_users,
      ∀ uid : Nat, a.touchesUser = some uid →
        uid ∈ local_users_by_einfra.map Prod.snd := by
  intro a ha uid htouch
  unfold synchronize_users_from_perun at ha
  rcases List.mem_append.mp ha with ha' | ha'
  · exact (processDumpUsers_actions_touch_known config dump_users
      local_users_by_einfra).1 a ha' uid htouch
  · rw [List.mem_map] at ha'
    obtain ⟨p, hp, hp'⟩ := ha'
    have hpin := (processDumpUsers_actions_touch_known config dump_users
      local_users_by_einfra).2 p hp
    rw [← hp'] at htouch
    simp only [SyncAction.touchesUser, Option.some.injEq] at htouch
    rw [← htouch]
    exact List.mem_map_of_mem Prod.snd hpin

/-- Witness for C7: in a pass whose local map holds only user 5, the single
revoke action touches user 5, which indeed is a pre-existing local user. -/
theorem synchronize_users_from_perun_no_create_witness :
    (5 : Nat) ∈ ([("E1", 5)] : List (String × Nat)).map Prod.snd :=
  synchronize_users_from_perun_no_create ["curator", "member"] [("E1", 5)] []
    (SyncAction.revokeAll 5) (by decide) 5 rfl

/- ----------------------------------------------------------------
C5: the staleness guard of `update_from_perun_dump` (tasks.py) and the
pointer write in `store_dump` (resources.py).  The coordination state
is the `EINFRA_LAST_DUMP_PATH` cache slot plus the list of batches
whose changes were applied; the download/checksum/synchronization body
of the task is abstracted into appending the batch to `applied`, since
the claim concerns only the guard that precedes it.  `store_dump`
writes the pointer at submission time; the scheduled task runs later
as a separate event.
---------------------------------------------------------------- -/

/-- Coordination state: the `EINFRA_LAST_DUMP_PATH` cache slot (absent =
`none`) and the identities of the batches whose changes were applied. -/
structure DumpState where
  pointer : Option String
  applied : List String
deriving DecidableEq, Repr

/-- Embedding of `store_dump`: upload the batch and set the cache pointer to
its path (submission time, before the processing task is scheduled). -/
def store_dump (st : DumpState) (dump_path : String) : DumpState :=
  { pointer := some dump_path, applied := st.applied }

/-- The Python guard `if cache_dump_path and cache_dump_path != dump_path`:
a truthy (present, non-empty) cached path different from this batch. -/
def dump_superseded (pointer : Option String) (dump_path : String) : Bool :=
  match pointer with
  | some cache_dump_path => !(cache_dump_path == "") && !(cache_dump_path == dump_path)
  | none => false

/-- Embedding of `update_from_perun_dump`: with staleness checking enabled,
return immediately with no changes when the cached pointer names a different
batch; otherwise apply the batch. -/
def update_from_perun_dump (st : DumpState) (dump_path : String)
    (check_dump_in_cache : Bool) : DumpState :=
  if check_dump_in_cache && dump_superseded st.pointer dump_path then st
  else { pointer := st.pointer, applied := st.applied ++ [dump_path] }

/-- Events of the coordination trace: a collaborator submits a batch
(`store_dump` then schedule), or a worker runs the processing task. -/
inductive DumpEvent where
  | submit (path : String)
  | run (path : String) (check : Bool)
deriving DecidableEq, Repr

/-- Step the coordination state by one event. -/
def dumpStep (st : DumpState) : DumpEvent → DumpState
  | DumpEvent.submit path => store_dump st path
  | DumpEvent.run path check => update_from_perun_dump st path check

/-- Run a trace of events. -/
def runDumpEvents (st : DumpState) (events : List DumpEvent) : DumpState :=
  events.foldl dumpStep st

/-- The most recently submitted batch in a trace, tracked from an initial
pointer value. -/
def submitFold (acc : Option String) : DumpEvent → Option String
  | DumpEvent.submit path => some path
  | DumpEvent.run _ _ => acc

/-- The most recently submitted batch of a trace, if any. -/
def lastSubmitPath (events : List DumpEvent) : Option String :=
  events.foldl submitFold none

theorem update_from_perun_dump_pointer (st : DumpState) (p : String) (c : Bool) :
    (update_from_perun_dump st p c).pointer = st.pointer := by
  unfold update_from_perun_dump
  split
  · rfl
  · rfl

theorem runDumpEvents_pointer :
    ∀ (events : List DumpEvent) (st : DumpState),
      (runDumpEvents st events).pointer = events.foldl submitFold st.pointer := by
  intro events
  induction events with
  | nil => intro st; rfl
  | cons e rest ih =>
      intro st
      have hstep : (dumpStep st e).pointer = submitFold st.pointer e := by
        cases e with
        | submit path => rfl
        | run path c => exact update_from_perun_dump_pointer st path c
      unfold runDumpEvents at ih ⊢
      rw [List.foldl_cons, List.foldl_cons, ih (dumpStep st e), hstep]

theorem foldl_submitFold_some :
    ∀ (events : List DumpEvent) (a : Option String) (x : String),
      lastSubmitPath events = some x → events.foldl submitFold a = some x := by
  intro events
  induction events with
  | nil =>
      intro a x h
      exact absurd h (by simp [lastSubmitPath])
  | cons e rest ih =>
      intro a x h
      unfold lastSubmitPath at h
      rw [List.foldl_cons] at h
      rw [List.foldl_cons]
      cases e with
      | submit p => exact h
      | run p c => exact ih a x h

theorem update_from_perun_dump_skips (st : DumpState) (p q : String)
    (hq : st.pointer = some q) (hne : q ≠ "") (hnp : q ≠ p) :
    update_from_perun_dump st p true = st := by
  unfold update_from_perun_dump
  have hsup : dump_superseded st.pointer p = true := by
    rw [hq]
    unfold dump_superseded
    simp [hne, hnp]
  rw [hsup]
  simp

/-- Claim C5: with staleness checking enabled, a processing task whose batch
is not the most recently submitted one (the cache pointer, written at
submission time, names a different non-empty batch) returns immediately with
the state untouched, so a late-arriving task for a superseded batch never
applies its changes: deleting that run from the trace changes nothing. -/
theorem update_from_perun_dump_staleness (init : DumpState)
    (pre post : List DumpEvent) (b bLast : String)
    (hlast : lastSubmitPath pre = some bLast) (hne : bLast ≠ "")
    (hnb : bLast ≠ b) :
    update_from_perun_dump (runDumpEvents init pre) b true
      = runDumpEvents init pre ∧
    runDumpEvents init (pre ++ DumpEvent.run b true :: post)
      = runDumpEvents init (pre ++ post) := by
  have hptr : (runDumpEvents init pre).pointer = some bLast := by
    rw [runDumpEvents_pointer]
    exact foldl_submitFold_some pre init.pointer bLast hlast
  have hskip : update_from_perun_dump (runDumpEvents init pre) b true
      = runDumpEvents init pre :=
    update_from_perun_dump_skips _ b bLast hptr hne hnb
  refine ⟨hskip, ?_⟩
  unfold runDumpEvents
  rw [List.foldl_append, List.foldl_cons, List.foldl_append]
  have hds : dumpStep (List.foldl dumpStep init pre) (DumpEvent.run b true)
      = List.foldl dumpStep init pre := hskip
  rw [hds]

/-- Witness for C5: batches b1 and b2 are submitted in that order; the
late-arriving task for b1 is a no-op on the whole trace. -/
theorem update_from_perun_dump_staleness_witness :
    runDumpEvents ⟨none, []⟩
        ([DumpEvent.submit "b1.json", DumpEvent.submit "b2.json"]
          ++ DumpEvent.run "b1.json" true :: [])
      = runDumpEvents ⟨none, []⟩
        ([DumpEvent.submit "b1.json", DumpEvent.submit "b2.json"] ++ []) :=
  (update_from_perun_dump_staleness ⟨none, []⟩
    [DumpEvent.submit "b1.json", DumpEvent.submit "b2.json"] [] "b1.json" "b2.json"
    (by decide) (by decide) (by decide)).2

/- ----------------------------------------------------------------
C8: `PerunDumpData.resource_to_community_roles` (perun/dump.py).
Each capability string of a resource is split on ":"; a string maps to
a community role exactly when it has five segments with segments 0, 1
and 3 equal to "res", "communities" and "role"; matching strings with
a slug unknown to `slug_to_id` or a role outside the configured role
set are dropped with a logged error, and the surrounding loop simply
continues with the remaining capability strings.  Python's
`capability.split(":")` is embedded as a character-level split, which
is equivalent for the one-character separator.
---------------------------------------------------------------- -/

/-- Python's `capability.split(":")`. -/
def split_colon (s : String) : List String :=
  (s.toList.splitOn ':').map List.asString

/-- Result of examining one capability string. -/
inductive CapabilityParse where
  | parsed (cr : CommunityRole)
  | unknownCommunity (slug : String)
  | unknownRole (role : String)
  | noMatch
deriving DecidableEq, Repr

/-- Whether the examination produced a community role. -/
def CapabilityParse.isParsed : CapabilityParse → Bool
  | CapabilityParse.parsed _ => true
  | _ => false

/-- The loop body of `resource_to_community_roles` applied to the parts of
one capability string: require five segments with the literal markers, then
resolve the slug through `slug_to_id` (dropping unknown slugs with a logged
error) and check the role against the configured role names (dropping
unknown roles with a logged error). -/
def parse_capability_parts (slug_to_id : List (String × String))
    (role_names : List String) (parts : List String) : CapabilityParse :=
  match parts with
  | [p0, p1, community_slug, p3, role] =>
      if p0 = "res" ∧ p1 = "communities" ∧ p3 = "role" then
        match slug_to_id.find? (fun p => p.1 == community_slug) with
        | none => CapabilityParse.unknownCommunity community_slug
        | some p =>
            if role ∈ role_names then CapabilityParse.parsed ⟨p.2, role⟩
            else CapabilityParse.unknownRole role
      else CapabilityParse.noMatch
  | _ => CapabilityParse.noMatch

/-- Examination of one capability string: split on ":" and process. -/
def parse_capability (slug_to_id : List (String × String))
    (role_names : List String) (capability : String) : CapabilityParse :=
  parse_capability_parts slug_to_id role_names (split_colon capability)

/-- The grammar test of the claim: five colon-delimited segments with
segments 0, 1 and 3 literal. -/
def capability_grammar_matches (parts : List String) : Bool :=
  match parts with
  | [p0, p1, _, p3, _] => p0 == "res" && p1 == "communities" && p3 == "role"
  | _ => false

/-- The community roles collected from one resource's capability attribute
values (the body of `resource_to_community_roles` for one resource). -/
def capability_list_roles (slug_to_id : List (String × String))
    (role_names : List String) (capabilities : List String) : List CommunityRole :=
  capabilities.filterMap fun c =>
    match parse_capability slug_to_id role_names c with
    | CapabilityParse.parsed cr => some cr
    | _ => none

/-- Claim C8: a capability string is examined further (parsed or dropped with
a logged error) exactly when it splits on ":" into five segments with
segments 0, 1, 3 equal to "res", "communities", "role"; it maps to a role
assignment only with a locally known slug and a configured role name; and a
capability that does not parse never aborts the processing of the remaining
capability strings. -/
theorem resource_to_community_roles_spec (slug_to_id : List (String × String))
    (role_names : List String) :
    (∀ capability : String, parse_capability slug_to_id role_names capability
        = parse_capability_parts slug_to_id role_names (split_colon capability)) ∧
    (∀ parts : List String,
      (parse_capability_parts slug_to_id role_names parts ≠ CapabilityParse.noMatch ↔
        capability_grammar_matches parts = true)) ∧
    (∀ parts cr, parse_capability_parts slug_to_id role_names parts
        = CapabilityParse.parsed cr →
      capability_grammar_matches parts = true ∧
      (∃ p ∈ slug_to_id, p.1 = parts.getD 2 "" ∧ p.2 = cr.community_id) ∧
      cr.role = parts.getD 4 "" ∧ cr.role ∈ role_names) ∧
    (∀ caps₁ caps₂ c,
      (parse_capability slug_to_id role_names c).isParsed = false →
      capability_list_roles slug_to_id role_names (caps₁ ++ c :: caps₂)
        = capability_list_roles slug_to_id role_names (caps₁ ++ caps₂)) := by
  refine ⟨fun capability => rfl, ?_, ?_, ?_⟩
  · intro parts
    rcases parts with _ | ⟨p0, _ | ⟨p1, _ | ⟨s, _ | ⟨p3, _ | ⟨r, _ | ⟨x, rest⟩⟩⟩⟩⟩⟩
    · simp [parse_capability_parts, capability_grammar_matches]
    · simp [parse_capability_parts, capability_grammar_matches]
    · simp [parse_capability_parts, capability_grammar_matches]
    · simp [parse_capability_parts, capability_grammar_matches]
    · simp [parse_capability_parts, capability_grammar_matches]
    · simp only [parse_capability_parts, capability_grammar_matches]
      by_cases hc : p0 = "res" ∧ p1 = "communities" ∧ p3 = "role"
      · rw [if_pos hc]
        constructor
        · intro _
          simp only [Bool.and_eq_true, beq_iff_eq]
          exact ⟨⟨hc.1, hc.2.1⟩, hc.2.2⟩
        · intro _
          rcases hfind : slug_to_id.find? (fun p => p.1 == s) with _ | p
          · simp only [hfind]
            simp
          · simp only [hfind]
            by_cases hr : r ∈ role_names
            · rw [if_pos hr]
              simp
            · rw [if_neg hr]
              simp
      · rw [if_neg hc]
        constructor
        · intro hn
          exact absurd rfl hn
        · intro hb
          exfalso
          apply hc
          simp only [Bool.and_eq_true, beq_iff_eq] at hb
          exact ⟨hb.1.1, hb.1.2, hb.2⟩
    · simp [parse_capability_parts, capability_grammar_matches]
  · intro parts cr hp
    rcases parts with _ | ⟨p0, _ | ⟨p1, _ | ⟨s, _ | ⟨p3, _ | ⟨r, _ | ⟨x, rest⟩⟩⟩⟩⟩⟩
    · simp [parse_capability_parts] at hp
    · simp [parse_capability_parts] at hp
    · simp [parse_capability_parts] at hp
    · simp [parse_capability_parts] at hp
    · simp [parse_capability_parts] at hp
    · simp only [parse_capability_parts] at hp
      by_cases hc : p0 = "res" ∧ p1 = "communities" ∧ p3 = "role"
      · rw [if_pos hc] at hp
        rcases hfind : slug_to_id.find? (fun p => p.1 == s) with _ | p
        · simp only [hfind] at hp
          simp at hp
        · simp only [hfind] at hp
          by_cases hr : r ∈ role_names
          · rw [if_pos hr] at hp
            simp only [CapabilityParse.parsed.injEq] at hp
            refine ⟨?_, ⟨p, List.mem_of_find?_eq_some hfind, ?_, ?_⟩, ?_, ?_⟩
            · simp only [capability_grammar_matches, Bool.and_eq_true, beq_iff_eq]
              exact ⟨⟨hc.1, hc.2.1⟩, hc.2.2⟩
            · have := List.find?_some hfind
              simpa using this
            · rw [← hp]
            · rw [← hp]
              rfl
            · rw [← hp]
              exact hr
          · rw [if_neg hr] at hp
            simp at hp
      · rw [if_neg hc] at hp
        simp at hp
    · simp [parse_capability_parts] at hp
  · intro caps₁ caps₂ c hnp
    unfold capability_list_roles
    rw [List.filterMap_append, List.filterMap_append]
    congr 1
    rw [List.filterMap_cons]
    rcases hp : parse_capability slug_to_id role_names c with cr | s | r | _
    · rw [hp] at hnp
      simp [CapabilityParse.isParsed] at hnp
    · simp only [hp]
    · simp only [hp]
    · simp only [hp]

/-- Witness for C8: a capability with an unknown slug is dropped and does not
disturb the parse of the surrounding capability strings. -/
theorem resource_to_community_roles_spec_witness :
    capability_list_roles [("cuni", "id-1")] ["curator", "member"]
        (["res:communities:cuni:role:curator"]
          ++ "res:communities:unknown:role:curator"
            :: ["res:communities:cuni:role:member"])
      = capability_list_roles [("cuni", "id-1")] ["curator", "member"]
          (["res:communities:cuni:role:curator"]
            ++ ["res:communities:cuni:role:member"]) :=
  (resource_to_community_roles_spec [("cuni", "id-1")] ["curator", "member"]).2.2.2
    ["res:communities:cuni:role:curator"] ["res:communities:cuni:role:member"]
    "res:communities:unknown:role:curator" (by decide)

/-- Witness for the amended C1 at a concrete input: the issued sequence is
removals first, then additions. -/
theorem set_user_community_membership_removals_first_witness :
    removals_before_additions
      (set_user_community_membership ["curator", "member"]
        [⟨"A", "member"⟩] [⟨"B", "member"⟩] none) = true :=
  set_user_community_membership_removals_first ["curator", "member"]
    [⟨"A", "member"⟩] [⟨"B", "member"⟩] none

/-- Witness for C6 at a concrete attribute: the desired value is added and
the pre-existing unrelated value is kept. -/
theorem set_resource_capabilities_spec_witness :
    "b" ∈ (set_resource_capabilities (some ["a"]) ["b"]).2 ∧
    "a" ∈ (set_resource_capabilities (some ["a"]) ["b"]).2 :=
  ⟨((set_resource_capabilities_spec (some ["a"]) ["b"]).1 "b").mpr (Or.inr (by decide)),
   (set_resource_capabilities_spec (some ["a"]) ["b"]).2.2 "a" (by decide)⟩
